import Mathlib

set_option maxHeartbeats 1000000

/-!
A shallow embedding of the rust-pal fixed-capacity reference-counted object
pool (src/pool.rs).  The backing buffer is modelled as a list of byte
values; the reference count of slot i is stored little-endian in the 8
header bytes at byte offset i * slot_size, exactly as the Rust code lays
out SlotHeader (a single AtomicUsize) in front of each payload.  All
operations are modelled sequentially: every compare-and-swap retry loop
succeeds on its first iteration, which is the behaviour of the code in the
absence of interleaving.  Arithmetic on the stored counter wraps modulo
2 to the 64, matching release-mode usize semantics; the source leaves
counter overflow unguarded.  Reads of bytes outside the buffer return 0
and writes outside the buffer are dropped; these model out-of-bounds
accesses, which are undefined behaviour in the source.
-/

namespace RustPal

/-- Size in bytes of the platform word (usize on a 64-bit target), hence of
SlotHeader, whose only field is an AtomicUsize. -/
def USIZE_BYTES : Nat := 8

/-- One past the largest value storable in a usize on a 64-bit target. -/
def USIZE_MOD : Nat := 2 ^ 64

/-- Byte k of a buffer; reads outside the buffer yield 0. -/
def byteAt (buf : List Nat) (k : Nat) : Nat := buf.getD k 0

/-- Read an n-byte little-endian unsigned integer at byte offset off. -/
def readLE : List Nat → Nat → Nat → Nat
  | _, _, 0 => 0
  | buf, off, n+1 => byteAt buf off + 256 * readLE buf (off+1) n

/-- Write v as an n-byte little-endian unsigned integer at byte offset off
(v is truncated to n bytes; out-of-range byte writes are dropped). -/
def writeLE : List Nat → Nat → Nat → Nat → List Nat
  | buf, _, 0, _ => buf
  | buf, off, n+1, v => writeLE (buf.set off (v % 256)) (off+1) n (v / 256)

/-- Zero the first n bytes of a buffer (models the byte loop in clear). -/
def zeroFill : Nat → List Nat → List Nat
  | 0, buf => buf
  | _+1, [] => []
  | n+1, _ :: bs => 0 :: zeroFill n bs

/-- Copy n bytes inside a buffer, reading every byte from the snapshot
orig (models ptr::copy, which has memmove semantics). -/
def copyBytesAux : List Nat → Nat → Nat → Nat → List Nat → List Nat
  | _, _, _, 0, buf => buf
  | orig, src, dst, n+1, buf =>
      copyBytesAux orig (src+1) (dst+1) n (buf.set dst (byteAt orig src))

/-- Copy n bytes from offset src to offset dst of buf (ptr::copy). -/
def copyBytes (buf : List Nat) (src dst n : Nat) : List Nat :=
  copyBytesAux buf src dst n buf

/-- The pool state.  sizeT models the size in bytes of the type parameter T
(the PhantomData field of the Rust struct fixes T); the remaining fields
are exactly the fields of Pool in src/pool.rs, with the raw buffer pointer
replaced by the byte list it points to. -/
structure Pool where
  sizeT : Nat
  buffer : List Nat
  buffer_size : Nat
  capacity : Nat
  tail : Nat
  slot_size : Nat
  header_size : Nat
  free_list : List Nat
deriving DecidableEq, Repr

namespace Pool

/-- Pool::new: computes header_size, slot_size and capacity from the buffer
length; writes nothing into the buffer. -/
def new (sizeT : Nat) (mem : List Nat) : Pool :=
  let header_size := USIZE_BYTES
  let slot_size := sizeT + header_size
  { sizeT := sizeT
    buffer := mem
    buffer_size := mem.length
    capacity := mem.length / slot_size
    tail := 0
    slot_size := slot_size
    header_size := header_size
    free_list := [] }

/-- The ref count of slot i: header_for(i) reinterprets the bytes at offset
i * slot_size as a SlotHeader, i.e. one usize, and loads it.  Note the
source derives this offset from slot_size but reads a full usize
regardless of the header_size field. -/
def refCount (p : Pool) (i : Nat) : Nat :=
  readLE p.buffer (i * p.slot_size) USIZE_BYTES

/-- Store v into the ref-count field of slot i. -/
def setRefCount (p : Pool) (i : Nat) (v : Nat) : Pool :=
  { p with buffer := writeLE p.buffer (i * p.slot_size) USIZE_BYTES v }

/-- Pool::retain: the compare-and-swap loop loads the current count old and
stores old + 1 (wrapping usize addition). -/
def retain (p : Pool) (i : Nat) : Pool :=
  p.setRefCount i ((p.refCount i + 1) % USIZE_MOD)

/-- Pool::release: asserts the current count is positive (returning none
models the process-terminating assertion failure), stores old - 1, and when
old was 1 pushes the index onto the back of the free list. -/
def release (p : Pool) (i : Nat) : Option Pool :=
  let old := p.refCount i
  if old = 0 then
    none
  else
    let p1 := p.setRefCount i (old - 1)
    some (if old = 1 then { p1 with free_list := p1.free_list ++ [i] } else p1)

/-- Pool::live_count: tail - free_list.len() (usize subtraction; in
reachable states the free list is never longer than tail). -/
def live_count (p : Pool) : Nat := p.tail - p.free_list.length

/-- Pool::clear: zero every byte of the buffer; no other field changes. -/
def clear (p : Pool) : Pool :=
  { p with buffer := zeroFill p.buffer_size p.buffer }

/-- Pool::push_back_alloc: the compare-and-swap loop bumps tail
unconditionally, and only afterwards compares the pre-bump value against
capacity, so a failed allocation still increments tail. -/
def push_back_alloc (p : Pool) : Except String Nat × Pool :=
  let old_tail := p.tail
  let p1 := { p with tail := old_tail + 1 }
  if p.capacity ≤ old_tail then (Except.error "OOM", p1)
  else (Except.ok old_tail, p1)

/-- Pool::claim_free_index: pop the front of the free list if possible,
otherwise claim virgin space, then retain the claimed index. -/
def claim_free_index (p : Pool) : Except String Nat × Pool :=
  match p.free_list with
  | i :: rest => (Except.ok i, Pool.retain { p with free_list := rest } i)
  | [] =>
    match p.push_back_alloc with
    | (Except.ok i, p1) => (Except.ok i, p1.retain i)
    | (Except.error e, p1) => (Except.error e, p1)

/-- Pool::internal_alloc: claims a slot and returns its index. -/
def internal_alloc (p : Pool) : Except String Nat × Pool :=
  p.claim_free_index

/-- Pool::alloc: an Arc is identified by its slot index (its other field,
the pool pointer, is the pool the operation runs on). -/
def alloc (p : Pool) : Except String Nat × Pool :=
  p.internal_alloc

/-- Pool::raw_contents_for: byte offset of the payload of slot i. -/
def raw_contents_off (p : Pool) (i : Nat) : Nat :=
  i * p.slot_size + p.header_size

/-- Pool::alloc_with_contents_of: claim a slot exactly like alloc, then
byte-copy size_of T payload bytes from the source slot to the new slot. -/
def alloc_with_contents_of (p : Pool) (src : Nat) : Except String Nat × Pool :=
  match p.claim_free_index with
  | (Except.ok i, p1) =>
      (Except.ok i,
        { p1 with
          buffer :=
            copyBytes p1.buffer (p1.raw_contents_off src) (p1.raw_contents_off i)
              p1.sizeT })
  | (Except.error e, p1) => (Except.error e, p1)

end Pool

/-- One pool operation, with no restriction on its arguments: an allocation
attempt (successful or not), an allocate-copy attempt, retain or release on
an arbitrary index (a release whose assertion fires terminates the process
and has no successor state), or clear. -/
inductive PoolStep : Pool → Pool → Prop where
  | alloc (p : Pool) : PoolStep p (p.internal_alloc).2
  | alloc_copy (p : Pool) (src : Nat) : PoolStep p (p.alloc_with_contents_of src).2
  | retain (p : Pool) (i : Nat) : PoolStep p (p.retain i)
  | release (p : Pool) (i : Nat) (p2 : Pool) : p.release i = some p2 → PoolStep p p2
  | clear (p : Pool) : PoolStep p p.clear

/-- One handle-disciplined pool operation: an allocation attempt
(successful or not), an allocate-copy attempt from a live source, a retain
on a live slot whose count does not overflow, or a release that passes its
assertion.  This is the protocol the Arc handle type follows; clear is not
part of it. -/
inductive SafeStep : Pool → Pool → Prop where
  | alloc_ok (p : Pool) (i : Nat) (p2 : Pool) :
      p.internal_alloc = (Except.ok i, p2) → SafeStep p p2
  | alloc_err (p : Pool) (e : String) (p2 : Pool) :
      p.internal_alloc = (Except.error e, p2) → SafeStep p p2
  | alloc_copy (p : Pool) (src : Nat) (r : Except String Nat) (p2 : Pool) :
      1 ≤ p.refCount src → p.alloc_with_contents_of src = (r, p2) → SafeStep p p2
  | retain_live (p : Pool) (i : Nat) :
      1 ≤ p.refCount i → p.refCount i + 1 < USIZE_MOD → SafeStep p (p.retain i)
  | release_ok (p : Pool) (i : Nat) (p2 : Pool) :
      p.release i = some p2 → SafeStep p p2

/-- Pool states reachable from construction over a zero-initialized buffer
of the given byte size by handle-disciplined operations. -/
inductive Reach (sizeT size : Nat) : Pool → Prop where
  | init : Reach sizeT size (Pool.new sizeT (List.replicate size 0))
  | step {p p2 : Pool} : Reach sizeT size p → SafeStep p p2 → Reach sizeT size p2

/-- The inductive pool invariant: layout facts, well-formed bytes, and the
free-list/ref-count correspondence for every slot index below both tail and
capacity (a failed allocation can push tail past capacity; the indices in
between denote no slot of the buffer). -/
structure Inv (p : Pool) : Prop where
  hss : p.slot_size = p.sizeT + USIZE_BYTES
  hhs : p.header_size = USIZE_BYTES
  hcap : p.capacity * p.slot_size ≤ p.buffer.length
  hbytes : ∀ b ∈ p.buffer, b < 256
  hnodup : p.free_list.Nodup
  hfree_lt : ∀ j ∈ p.free_list, j < p.tail ∧ j < p.capacity
  hfree_zero : ∀ j ∈ p.free_list, p.refCount j = 0
  hzero_mem : ∀ i, i < p.tail → i < p.capacity → p.refCount i = 0 → i ∈ p.free_list
  hvirgin : ∀ i, i < p.capacity → p.tail ≤ i → p.refCount i = 0
  htrail : ∀ k, p.capacity * p.slot_size ≤ k → byteAt p.buffer k = 0

/-- A concrete pool state whose slot-0 header stores 2: one slot of a 4-byte
payload type over a 12-byte buffer, claimed and retained once. -/
def poolRC2 : Pool :=
  { sizeT := 4
    buffer := 2 :: List.replicate 11 0
    buffer_size := 12
    capacity := 1
    tail := 1
    slot_size := 12
    header_size := 8
    free_list := [] }

/-- A concrete pool state whose slot-0 header stores usize::MAX (all eight
header bytes are 0xFF). -/
def poolMax : Pool :=
  { sizeT := 4
    buffer := List.replicate 8 255 ++ List.replicate 4 0
    buffer_size := 12
    capacity := 1
    tail := 1
    slot_size := 12
    header_size := 8
    free_list := [] }

/-- A concrete pool state whose slot-0 header stores 3. -/
def poolRC3 : Pool :=
  { sizeT := 4
    buffer := 3 :: List.replicate 11 0
    buffer_size := 12
    capacity := 1
    tail := 1
    slot_size := 12
    header_size := 8
    free_list := [] }

/-- A concrete pool over a 24-byte buffer (two slots of a 4-byte payload
type) whose slot 0 is live with ref count 1 and payload bytes 42,0,0,0. -/
def poolCopyBase : Pool :=
  { sizeT := 4
    buffer := [1, 0, 0, 0, 0, 0, 0, 0, 42, 0, 0, 0] ++ List.replicate 12 0
    buffer_size := 24
    capacity := 2
    tail := 1
    slot_size := 12
    header_size := 8
    free_list := [] }

/-- Second state of the free-list-order trace: two slots allocated from a
fresh 24-byte pool. -/
def c4s2 : Pool :=
  (((Pool.new 4 (List.replicate 24 0)).internal_alloc).2.internal_alloc).2

/-- Third state: slot 0 released. -/
def c4s3 : Pool := (c4s2.release 0).getD c4s2

/-- Fourth state: slot 1 released as well; the free list reads [0, 1]. -/
def c4s4 : Pool := (c4s3.release 1).getD c4s3

/-- Final state: allocate (which pops index 0) and release it again. -/
def c4s5 : Pool := ((c4s4.internal_alloc).2.release 0).getD (c4s4.internal_alloc).2

/-! Lemmas about the byte-level memory model. -/

theorem byteAt_lt_of_valid {buf : List Nat} (hv : ∀ b ∈ buf, b < 256) {k : Nat} :
    byteAt buf k < 256 := by
  by_cases hk : k < buf.length
  · rw [byteAt, List.getD_eq_getElem _ _ hk]
    exact hv _ (List.getElem_mem hk)
  · rw [byteAt, List.getD_eq_default _ _ (by omega)]
    norm_num

theorem byteAt_set (buf : List Nat) (i v k : Nat) :
    byteAt (buf.set i v) k = if i = k ∧ i < buf.length then v else byteAt buf k := by
  by_cases hk : k < buf.length
  · have hk2 : k < (buf.set i v).length := by simpa [List.length_set] using hk
    rw [byteAt, byteAt, List.getD_eq_getElem _ _ hk2, List.getD_eq_getElem _ _ hk]
    by_cases hik : i = k
    · subst hik
      rw [List.getElem_set_self, if_pos ⟨rfl, hk⟩]
    · rw [List.getElem_set_ne hik, if_neg (by tauto)]
  · have hk2 : (buf.set i v).length ≤ k := by rw [List.length_set]; omega
    rw [byteAt, byteAt, List.getD_eq_default _ _ hk2, List.getD_eq_default _ _ (by omega)]
    rw [if_neg (by omega)]

theorem length_writeLE (n : Nat) : ∀ (buf : List Nat) (off v : Nat),
    (writeLE buf off n v).length = buf.length := by
  induction n with
  | zero => intro buf off v; rfl
  | succ n ih =>
    intro buf off v
    rw [show writeLE buf off (n+1) v
        = writeLE (buf.set off (v % 256)) (off+1) n (v / 256) from rfl]
    rw [ih, List.length_set]

theorem byteAt_writeLE (n : Nat) : ∀ (buf : List Nat) (off v k : Nat),
    byteAt (writeLE buf off n v) k =
      if off ≤ k ∧ k < off + n ∧ k < buf.length then v / 256 ^ (k - off) % 256
      else byteAt buf k := by
  induction n with
  | zero =>
    intro buf off v k
    rw [if_neg (by omega)]
    rfl
  | succ n ih =>
    intro buf off v k
    rw [show writeLE buf off (n+1) v
        = writeLE (buf.set off (v % 256)) (off+1) n (v / 256) from rfl]
    rw [ih, List.length_set, byteAt_set]
    by_cases h1 : off + 1 ≤ k ∧ k < off + 1 + n ∧ k < buf.length
    · rw [if_pos h1, if_pos (by omega)]
      have hpow : (256:Nat) * 256 ^ (k - (off+1)) = 256 ^ (k - off) := by
        rw [show k - off = (k - (off + 1)) + 1 by omega, pow_succ, Nat.mul_comm]
      rw [Nat.div_div_eq_div_mul, hpow]
    · rw [if_neg h1]
      by_cases h2 : off = k ∧ off < buf.length
      · rw [if_pos h2, if_pos (by omega)]
        obtain ⟨h2a, _⟩ := h2
        subst h2a
        simp
      · rw [if_neg h2, if_neg (by omega)]

theorem readLE_eq_of_byteAt {n : Nat} : ∀ {b1 b2 : List Nat} {off : Nat},
    (∀ k, k < n → byteAt b1 (off + k) = byteAt b2 (off + k)) →
    readLE b1 off n = readLE b2 off n := by
  induction n with
  | zero => intro b1 b2 off _; rfl
  | succ n ih =>
    intro b1 b2 off h
    rw [readLE, readLE]
    have h0 : byteAt b1 off = byteAt b2 off := by simpa using h 0 (by omega)
    have h1 : readLE b1 (off+1) n = readLE b2 (off+1) n := ih fun k hk => by
      have hx := h (k+1) (by omega)
      have he : off + (k + 1) = off + 1 + k := by omega
      rwa [he] at hx
    rw [h0, h1]

theorem readLE_eq_zero {n : Nat} : ∀ {buf : List Nat} {off : Nat},
    (∀ k, k < n → byteAt buf (off + k) = 0) → readLE buf off n = 0 := by
  induction n with
  | zero => intro buf off _; rfl
  | succ n ih =>
    intro buf off h
    rw [readLE]
    have h0 : byteAt buf off = 0 := by simpa using h 0 (by omega)
    have h1 : readLE buf (off+1) n = 0 := ih fun k hk => by
      have hx := h (k+1) (by omega)
      have he : off + (k + 1) = off + 1 + k := by omega
      rwa [he] at hx
    rw [h0, h1]

theorem readLE_lt {buf : List Nat} (hv : ∀ b ∈ buf, b < 256) (off n : Nat) :
    readLE buf off n < 256 ^ n := by
  induction n generalizing off with
  | zero => simp [readLE]
  | succ n ih =>
    rw [readLE]
    have h1 : byteAt buf off < 256 := byteAt_lt_of_valid hv
    have h2 : readLE buf (off+1) n + 1 ≤ 256 ^ n := Nat.succ_le_of_lt (ih (off+1))
    calc byteAt buf off + 256 * readLE buf (off+1) n
        < 256 * (readLE buf (off+1) n + 1) := by omega
      _ ≤ 256 * 256 ^ n := Nat.mul_le_mul_left _ h2
      _ = 256 ^ (n+1) := by rw [pow_succ, Nat.mul_comm]

theorem valid_writeLE (n : Nat) : ∀ (buf : List Nat) (off v : Nat),
    (∀ b ∈ buf, b < 256) → ∀ b ∈ writeLE buf off n v, b < 256 := by
  induction n with
  | zero => intro buf off v hv b hb; exact hv b hb
  | succ n ih =>
    intro buf off v hv b hb
    rw [show writeLE buf off (n+1) v
        = writeLE (buf.set off (v % 256)) (off+1) n (v / 256) from rfl] at hb
    refine ih _ _ _ ?_ b hb
    intro c hc
    rcases List.mem_or_eq_of_mem_set hc with h | h
    · exact hv c h
    · subst h; exact Nat.mod_lt _ (by norm_num)

theorem readLE_writeLE_disjoint {n m : Nat} (buf : List Nat) (off off2 v : Nat)
    (h : off2 + m ≤ off ∨ off + n ≤ off2) :
    readLE (writeLE buf off n v) off2 m = readLE buf off2 m := by
  refine readLE_eq_of_byteAt fun k hk => ?_
  rw [byteAt_writeLE, if_neg (by omega)]

theorem mod_mul_split (v m : Nat) (hm : 0 < m) :
    v % (256 * m) = v % 256 + 256 * (v / 256 % m) := by
  have hr : v % 256 < 256 := Nat.mod_lt _ (by norm_num)
  have hq : v / 256 % m < m := Nat.mod_lt _ hm
  conv_lhs => rw [← Nat.div_add_mod v 256, Nat.add_comm (256 * (v / 256)) (v % 256)]
  rw [Nat.add_mod, Nat.mul_mod_mul_left]
  have e1 : v % 256 % (256 * m) = v % 256 := Nat.mod_eq_of_lt (by omega)
  rw [e1]
  exact Nat.mod_eq_of_lt (by omega)

theorem readLE_writeLE_same (n : Nat) : ∀ (buf : List Nat) (off v : Nat),
    off + n ≤ buf.length →
    readLE (writeLE buf off n v) off n = v % 256 ^ n := by
  induction n with
  | zero => intro buf off v _; simp [readLE, writeLE, Nat.mod_one]
  | succ n ih =>
    intro buf off v h
    rw [show writeLE buf off (n+1) v
        = writeLE (buf.set off (v % 256)) (off+1) n (v / 256) from rfl]
    rw [readLE]
    have hoff : off < buf.length := by omega
    have h1 : byteAt (writeLE (buf.set off (v % 256)) (off+1) n (v / 256)) off
        = v % 256 := by
      rw [byteAt_writeLE, if_neg (by omega), byteAt_set, if_pos ⟨rfl, hoff⟩]
    rw [h1, ih (buf.set off (v % 256)) (off+1) (v / 256) (by rw [List.length_set]; omega)]
    rw [show (256:Nat) ^ (n+1) = 256 * 256 ^ n by rw [pow_succ, Nat.mul_comm]]
    rw [mod_mul_split v (256 ^ n) (Nat.pos_pow_of_pos n (by norm_num))]

theorem set_byteAt_self (buf : List Nat) (off : Nat) :
    buf.set off (byteAt buf off) = buf := by
  induction buf generalizing off with
  | nil => rfl
  | cons b bs ih =>
    cases off with
    | zero => rfl
    | succ off =>
      show b :: bs.set off (byteAt (b :: bs) (off+1)) = b :: bs
      rw [show byteAt (b :: bs) (off+1) = byteAt bs off from rfl, ih]

theorem writeLE_readLE_self (n : Nat) : ∀ (buf : List Nat) (off : Nat),
    (∀ b ∈ buf, b < 256) →
    writeLE buf off n (readLE buf off n) = buf := by
  induction n with
  | zero => intro buf off _; rfl
  | succ n ih =>
    intro buf off hv
    rw [show writeLE buf off (n+1) (readLE buf off (n+1))
        = writeLE (buf.set off (readLE buf off (n+1) % 256)) (off+1) n
            (readLE buf off (n+1) / 256) from rfl]
    have hb : byteAt buf off < 256 := byteAt_lt_of_valid hv
    have h1 : readLE buf off (n+1) % 256 = byteAt buf off := by
      rw [readLE, Nat.add_mul_mod_self_left, Nat.mod_eq_of_lt hb]
    have h2 : readLE buf off (n+1) / 256 = readLE buf (off+1) n := by
      rw [readLE, Nat.add_mul_div_left _ _ (by norm_num : (0:Nat) < 256),
        Nat.div_eq_of_lt hb, Nat.zero_add]
    rw [h1, h2, set_byteAt_self, ih buf (off+1) hv]

theorem byteAt_ext {b1 b2 : List Nat} (hl : b1.length = b2.length)
    (h : ∀ k, byteAt b1 k = byteAt b2 k) : b1 = b2 := by
  refine List.ext_getElem hl fun n h1 h2 => ?_
  have hn := h n
  rwa [byteAt, byteAt, List.getD_eq_getElem _ _ h1, List.getD_eq_getElem _ _ h2] at hn

theorem writeLE_writeLE (n : Nat) (buf : List Nat) (off v w : Nat) :
    writeLE (writeLE buf off n v) off n w = writeLE buf off n w := by
  refine byteAt_ext (by rw [length_writeLE, length_writeLE, length_writeLE]) fun k => ?_
  rw [byteAt_writeLE, byteAt_writeLE, byteAt_writeLE, length_writeLE]
  by_cases h : off ≤ k ∧ k < off + n ∧ k < buf.length
  · rw [if_pos h, if_pos h]
  · rw [if_neg h, if_neg h, if_neg h]

theorem length_zeroFill (n : Nat) (buf : List Nat) :
    (zeroFill n buf).length = buf.length := by
  induction buf generalizing n with
  | nil => cases n <;> rfl
  | cons b bs ih =>
    cases n with
    | zero => rfl
    | succ n =>
      show (0 :: zeroFill n bs).length = (b :: bs).length
      simp [ih]

theorem byteAt_zeroFill (n : Nat) (buf : List Nat) (k : Nat) :
    byteAt (zeroFill n buf) k = if k < n ∧ k < buf.length then 0 else byteAt buf k := by
  induction buf generalizing n k with
  | nil =>
    cases n <;> rw [if_neg (by simp)] <;> rfl
  | cons b bs ih =>
    cases n with
    | zero => rw [if_neg (by omega)]; rfl
    | succ n =>
      cases k with
      | zero => rw [if_pos (by simp)]; rfl
      | succ k =>
        rw [show zeroFill (n+1) (b :: bs) = 0 :: zeroFill n bs from rfl]
        rw [show byteAt (0 :: zeroFill n bs) (k+1) = byteAt (zeroFill n bs) k from rfl]
        rw [show byteAt (b :: bs) (k+1) = byteAt bs k from rfl]
        rw [ih]
        by_cases h : k < n ∧ k < bs.length
        · rw [if_pos h, if_pos (by simp; omega)]
        · rw [if_neg h, if_neg (by simp; omega)]

theorem length_copyBytesAux (n : Nat) : ∀ (orig : List Nat) (src dst : Nat) (buf : List Nat),
    (copyBytesAux orig src dst n buf).length = buf.length := by
  induction n with
  | zero => intro orig src dst buf; rfl
  | succ n ih =>
    intro orig src dst buf
    rw [show copyBytesAux orig src dst (n+1) buf
        = copyBytesAux orig (src+1) (dst+1) n (buf.set dst (byteAt orig src)) from rfl]
    rw [ih, List.length_set]

theorem byteAt_copyBytesAux (n : Nat) :
    ∀ (orig : List Nat) (src dst : Nat) (buf : List Nat) (k : Nat),
    byteAt (copyBytesAux orig src dst n buf) k =
      if dst ≤ k ∧ k < dst + n ∧ k < buf.length then byteAt orig (src + (k - dst))
      else byteAt buf k := by
  induction n with
  | zero =>
    intro orig src dst buf k
    rw [if_neg (by omega)]
    rfl
  | succ n ih =>
    intro orig src dst buf k
    rw [show copyBytesAux orig src dst (n+1) buf
        = copyBytesAux orig (src+1) (dst+1) n (buf.set dst (byteAt orig src)) from rfl]
    rw [ih, List.length_set, byteAt_set]
    by_cases h1 : dst + 1 ≤ k ∧ k < dst + 1 + n ∧ k < buf.length
    · rw [if_pos h1, if_pos (by omega)]
      rw [show src + 1 + (k - (dst + 1)) = src + (k - dst) by omega]
    · rw [if_neg h1]
      by_cases h2 : dst = k ∧ dst < buf.length
      · rw [if_pos h2, if_pos (by omega)]
        obtain ⟨h2a, _⟩ := h2
        subst h2a
        rw [show dst - dst = 0 by omega, Nat.add_zero]
      · rw [if_neg h2, if_neg (by omega)]

theorem valid_copyBytesAux (n : Nat) :
    ∀ (orig : List Nat) (src dst : Nat) (buf : List Nat),
    (∀ b ∈ buf, b < 256) → (∀ s, byteAt orig s < 256) →
    ∀ b ∈ copyBytesAux orig src dst n buf, b < 256 := by
  induction n with
  | zero => intro orig src dst buf hv _ b hb; exact hv b hb
  | succ n ih =>
    intro orig src dst buf hv ho b hb
    rw [show copyBytesAux orig src dst (n+1) buf
        = copyBytesAux orig (src+1) (dst+1) n (buf.set dst (byteAt orig src)) from rfl] at hb
    refine ih _ _ _ _ ?_ ho b hb
    intro c hc
    rcases List.mem_or_eq_of_mem_set hc with h | h
    · exact hv c h
    · subst h; exact ho src

theorem valid_zeroFill (n : Nat) (buf : List Nat) (hv : ∀ b ∈ buf, b < 256) :
    ∀ b ∈ zeroFill n buf, b < 256 := by
  induction buf generalizing n with
  | nil => cases n <;> simp [zeroFill]
  | cons b bs ih =>
    cases n with
    | zero => exact hv
    | succ n =>
      intro c hc
      rw [show zeroFill (n+1) (b :: bs) = 0 :: zeroFill n bs from rfl] at hc
      rcases List.mem_cons.mp hc with h | h
      · subst h; norm_num
      · exact ih n (fun x hx => hv x (List.mem_cons_of_mem _ hx)) c h

/-! Lemmas about the pool operations. -/

namespace Pool

theorem slot_mul_add_le {i j ss : Nat} (hij : i < j) (hss : USIZE_BYTES ≤ ss) :
    i * ss + USIZE_BYTES ≤ j * ss := by
  have h1 : (i + 1) * ss ≤ j * ss := Nat.mul_le_mul_right _ hij
  rw [Nat.succ_mul] at h1
  omega

theorem header_le_length (p : Pool) {i : Nat} (hi : i < p.capacity)
    (hss : USIZE_BYTES ≤ p.slot_size) (hcap : p.capacity * p.slot_size ≤ p.buffer.length) :
    i * p.slot_size + USIZE_BYTES ≤ p.buffer.length := by
  have h1 : i * p.slot_size + USIZE_BYTES ≤ p.capacity * p.slot_size :=
    slot_mul_add_le hi hss
  omega

theorem length_buffer_setRefCount (p : Pool) (i v : Nat) :
    (p.setRefCount i v).buffer.length = p.buffer.length :=
  length_writeLE ..

theorem refCount_setRefCount_same (p : Pool) (i v : Nat)
    (h : i * p.slot_size + USIZE_BYTES ≤ p.buffer.length) :
    (p.setRefCount i v).refCount i = v % USIZE_MOD := by
  show readLE (writeLE p.buffer (i * p.slot_size) USIZE_BYTES v)
      (i * p.slot_size) USIZE_BYTES = v % USIZE_MOD
  rw [readLE_writeLE_same _ _ _ _ h]
  norm_num [USIZE_BYTES, USIZE_MOD]

theorem refCount_setRefCount_ne (p : Pool) {i j : Nat} (v : Nat) (hne : i ≠ j)
    (hss : USIZE_BYTES ≤ p.slot_size) :
    (p.setRefCount i v).refCount j = p.refCount j := by
  show readLE (writeLE p.buffer (i * p.slot_size) USIZE_BYTES v)
      (j * p.slot_size) USIZE_BYTES = readLE p.buffer (j * p.slot_size) USIZE_BYTES
  apply readLE_writeLE_disjoint
  rcases Nat.lt_or_ge i j with h | h
  · right; exact slot_mul_add_le h hss
  · left; exact slot_mul_add_le (by omega) hss

theorem byteAt_setRefCount_out (p : Pool) (i v k : Nat)
    (h : k < i * p.slot_size ∨ i * p.slot_size + USIZE_BYTES ≤ k) :
    byteAt (p.setRefCount i v).buffer k = byteAt p.buffer k := by
  show byteAt (writeLE p.buffer (i * p.slot_size) USIZE_BYTES v) k = byteAt p.buffer k
  rw [byteAt_writeLE, if_neg (by omega)]

theorem valid_setRefCount (p : Pool) (i v : Nat) (hv : ∀ b ∈ p.buffer, b < 256) :
    ∀ b ∈ (p.setRefCount i v).buffer, b < 256 :=
  valid_writeLE _ _ _ _ hv

theorem refCount_eq_zero_of_cap_le (p : Pool) {i : Nat} (hi : p.capacity ≤ i)
    (htrail : ∀ k, p.capacity * p.slot_size ≤ k → byteAt p.buffer k = 0) :
    p.refCount i = 0 := by
  show readLE p.buffer (i * p.slot_size) USIZE_BYTES = 0
  have hbase : p.capacity * p.slot_size ≤ i * p.slot_size :=
    Nat.mul_le_mul_right _ hi
  exact readLE_eq_zero fun k _ => htrail _ (by omega)

theorem refCount_lt (p : Pool) (i : Nat) (hv : ∀ b ∈ p.buffer, b < 256) :
    p.refCount i < USIZE_MOD := by
  have h := readLE_lt hv (i * p.slot_size) USIZE_BYTES
  have he : (256:Nat) ^ USIZE_BYTES = USIZE_MOD := by norm_num [USIZE_BYTES, USIZE_MOD]
  rw [he] at h
  exact h

theorem release_eq_none_iff (p : Pool) (i : Nat) :
    p.release i = none ↔ p.refCount i = 0 := by
  by_cases h : p.refCount i = 0 <;> simp [release, h]

theorem release_one (p : Pool) (i : Nat) (h : p.refCount i = 1) :
    p.release i = some { p.setRefCount i 0 with free_list := p.free_list ++ [i] } := by
  simp [release, h, setRefCount]

theorem release_many (p : Pool) (i : Nat) (h : 2 ≤ p.refCount i) :
    p.release i = some (p.setRefCount i (p.refCount i - 1)) := by
  simp [release, show p.refCount i ≠ 0 by omega, show p.refCount i ≠ 1 by omega]

theorem internal_alloc_cases (p : Pool) :
    (∃ j rest, p.free_list = j :: rest ∧
      p.internal_alloc = (Except.ok j, Pool.retain { p with free_list := rest } j)) ∨
    (p.free_list = [] ∧ p.tail < p.capacity ∧
      p.internal_alloc
        = (Except.ok p.tail, Pool.retain { p with tail := p.tail + 1 } p.tail)) ∨
    (p.free_list = [] ∧ p.capacity ≤ p.tail ∧
      p.internal_alloc = (Except.error "OOM", { p with tail := p.tail + 1 })) := by
  match hf : p.free_list with
  | j :: rest =>
    left
    exact ⟨j, rest, rfl, by simp [internal_alloc, claim_free_index, hf]⟩
  | [] =>
    right
    rcases Nat.lt_or_ge p.tail p.capacity with hlt | hge
    · left
      refine ⟨rfl, hlt, ?_⟩
      simp [internal_alloc, claim_free_index, hf, push_back_alloc, Nat.not_le.mpr hlt]
    · right
      refine ⟨rfl, hge, ?_⟩
      simp [internal_alloc, claim_free_index, hf, push_back_alloc, hge]

@[simp] theorem tail_setRefCount (p : Pool) (i v : Nat) :
    (p.setRefCount i v).tail = p.tail := rfl

@[simp] theorem capacity_setRefCount (p : Pool) (i v : Nat) :
    (p.setRefCount i v).capacity = p.capacity := rfl

@[simp] theorem free_list_setRefCount (p : Pool) (i v : Nat) :
    (p.setRefCount i v).free_list = p.free_list := rfl

@[simp] theorem slot_size_setRefCount (p : Pool) (i v : Nat) :
    (p.setRefCount i v).slot_size = p.slot_size := rfl

@[simp] theorem header_size_setRefCount (p : Pool) (i v : Nat) :
    (p.setRefCount i v).header_size = p.header_size := rfl

@[simp] theorem sizeT_setRefCount (p : Pool) (i v : Nat) :
    (p.setRefCount i v).sizeT = p.sizeT := rfl

@[simp] theorem tail_clear (p : Pool) : p.clear.tail = p.tail := rfl

@[simp] theorem capacity_clear (p : Pool) : p.clear.capacity = p.capacity := rfl

@[simp] theorem free_list_clear (p : Pool) : p.clear.free_list = p.free_list := rfl

@[simp] theorem tail_retain (p : Pool) (i : Nat) : (p.retain i).tail = p.tail := rfl

@[simp] theorem capacity_retain (p : Pool) (i : Nat) :
    (p.retain i).capacity = p.capacity := rfl

@[simp] theorem free_list_retain (p : Pool) (i : Nat) :
    (p.retain i).free_list = p.free_list := rfl

@[simp] theorem slot_size_retain (p : Pool) (i : Nat) :
    (p.retain i).slot_size = p.slot_size := rfl

@[simp] theorem header_size_retain (p : Pool) (i : Nat) :
    (p.retain i).header_size = p.header_size := rfl

@[simp] theorem sizeT_retain (p : Pool) (i : Nat) : (p.retain i).sizeT = p.sizeT := rfl

theorem length_buffer_retain (p : Pool) (i : Nat) :
    (p.retain i).buffer.length = p.buffer.length :=
  length_writeLE ..

theorem refCount_retain_same (p : Pool) (i : Nat)
    (h : i * p.slot_size + USIZE_BYTES ≤ p.buffer.length) :
    (p.retain i).refCount i = (p.refCount i + 1) % USIZE_MOD := by
  rw [Pool.retain, refCount_setRefCount_same _ _ _ h, Nat.mod_mod_of_dvd _ dvd_rfl]

theorem refCount_retain_ne (p : Pool) {i j : Nat} (hne : j ≠ i)
    (hss : USIZE_BYTES ≤ p.slot_size) :
    (p.retain i).refCount j = p.refCount j := by
  rw [Pool.retain]
  exact refCount_setRefCount_ne p _ (fun he => hne he.symm) hss

theorem internal_alloc_tail_facts (p : Pool) :
    (p.internal_alloc).2.capacity = p.capacity ∧
    p.tail ≤ (p.internal_alloc).2.tail ∧
    (p.internal_alloc).2.tail ≤ p.tail + 1 ∧
    (p.tail < p.capacity → (p.internal_alloc).2.tail ≤ p.capacity) := by
  rcases internal_alloc_cases p with ⟨j, rest, _, he⟩ | ⟨_, hlt, he⟩ | ⟨_, _, he⟩ <;>
    rw [he] <;> simp <;> omega

theorem release_some_fields (p : Pool) (i : Nat) (p2 : Pool) (h : p.release i = some p2) :
    p2.tail = p.tail ∧ p2.capacity = p.capacity ∧ p2.slot_size = p.slot_size ∧
    p2.header_size = p.header_size ∧ p2.sizeT = p.sizeT ∧
    p2.buffer.length = p.buffer.length ∧
    (p2.free_list = p.free_list ∨ p2.free_list = p.free_list ++ [i]) := by
  have hrc : p.refCount i ≠ 0 := by
    intro h0
    rw [(release_eq_none_iff p i).mpr h0] at h
    cases h
  rcases Nat.lt_or_ge (p.refCount i) 2 with hlt | hge
  · have h1 : p.refCount i = 1 := by omega
    rw [release_one p i h1] at h
    injection h with h
    subst h
    exact ⟨rfl, rfl, rfl, rfl, rfl, length_buffer_setRefCount .., Or.inr rfl⟩
  · rw [release_many p i hge] at h
    injection h with h
    subst h
    exact ⟨rfl, rfl, rfl, rfl, rfl, length_buffer_setRefCount .., Or.inl rfl⟩

theorem claim_eq_internal (p : Pool) : p.claim_free_index = p.internal_alloc := rfl

theorem mul_slots_apart {a b s : Nat} (h : a < b) : a * s + s ≤ b * s := by
  have h1 : (a + 1) * s ≤ b * s := Nat.mul_le_mul_right _ h
  rw [Nat.succ_mul] at h1
  exact h1

theorem claim_free_index_fields (p : Pool) :
    (p.claim_free_index).2.slot_size = p.slot_size ∧
    (p.claim_free_index).2.header_size = p.header_size ∧
    (p.claim_free_index).2.sizeT = p.sizeT ∧
    (p.claim_free_index).2.capacity = p.capacity ∧
    (p.claim_free_index).2.buffer.length = p.buffer.length := by
  rw [claim_eq_internal]
  rcases internal_alloc_cases p with ⟨j, rest, _, he⟩ | ⟨_, _, he⟩ | ⟨_, _, he⟩
  · rw [he]
    exact ⟨rfl, rfl, rfl, rfl, length_writeLE ..⟩
  · rw [he]
    exact ⟨rfl, rfl, rfl, rfl, length_writeLE ..⟩
  · rw [he]
    exact ⟨rfl, rfl, rfl, rfl, rfl⟩

theorem claim_ok_buffer (p : Pool) (i : Nat) (p1 : Pool)
    (h : p.claim_free_index = (Except.ok i, p1)) :
    ∃ v, p1.buffer = writeLE p.buffer (i * p.slot_size) USIZE_BYTES v := by
  rw [claim_eq_internal] at h
  rcases internal_alloc_cases p with ⟨j, rest, _, he⟩ | ⟨_, _, he⟩ | ⟨_, _, he⟩ <;>
    rw [he] at h <;>
    injection h with h1 h2
  · injection h1 with h1
    subst h1
    subst h2
    exact ⟨_, rfl⟩
  · injection h1 with h1
    subst h1
    subst h2
    exact ⟨_, rfl⟩
  · cases h1

theorem refCount_congr (p q : Pool) (i : Nat) (hss : q.slot_size = p.slot_size)
    (h : ∀ m, m < USIZE_BYTES →
      byteAt q.buffer (i * p.slot_size + m) = byteAt p.buffer (i * p.slot_size + m)) :
    q.refCount i = p.refCount i := by
  rw [Pool.refCount, Pool.refCount, hss]
  exact readLE_eq_of_byteAt h

theorem alloc_with_contents_of_snd (p : Pool) (src : Nat) :
    (p.alloc_with_contents_of src).1 = (p.internal_alloc).1 ∧
    (p.alloc_with_contents_of src).2.tail = (p.internal_alloc).2.tail ∧
    (p.alloc_with_contents_of src).2.capacity = (p.internal_alloc).2.capacity ∧
    (p.alloc_with_contents_of src).2.free_list = (p.internal_alloc).2.free_list := by
  rcases hc : p.claim_free_index with ⟨r, p1⟩
  cases r <;> simp [alloc_with_contents_of, internal_alloc, hc]

end Pool

theorem byteAt_replicate_zero (n k : Nat) : byteAt (List.replicate n 0) k = 0 := by
  induction n generalizing k with
  | zero => rfl
  | succ n ih =>
    cases k with
    | zero => rfl
    | succ k => exact ih k

theorem length_le_of_nodup_lt {l : List Nat} {n : Nat} (hd : l.Nodup)
    (hlt : ∀ x ∈ l, x < n) : l.length ≤ n := by
  have h1 : l.toFinset ⊆ Finset.range n := fun x hx =>
    Finset.mem_range.mpr (hlt x (List.mem_toFinset.mp hx))
  have h2 := Finset.card_le_card h1
  rwa [List.toFinset_card_of_nodup hd, Finset.card_range] at h2

/-- The invariant holds at construction over a zero-initialized buffer. -/
theorem inv_init (sizeT size : Nat) : Inv (Pool.new sizeT (List.replicate size 0)) := by
  refine ⟨rfl, rfl, Nat.div_mul_le_self _ _, ?_, List.nodup_nil, ?_, ?_, ?_, ?_, ?_⟩
  · intro b hb
    rw [List.eq_of_mem_replicate hb]
    norm_num
  · intro j hj
    cases hj
  · intro j hj
    cases hj
  · intro i hi _ _
    cases hi
  · intro i _ _
    exact readLE_eq_zero fun k _ => byteAt_replicate_zero ..
  · intro k _
    exact byteAt_replicate_zero ..

open Pool in
/-- A retain on a live slot whose counter does not overflow preserves the
invariant. -/
theorem inv_retain_live (p : Pool) (i : Nat) (hI : Inv p)
    (h1 : 1 ≤ p.refCount i) (h2 : p.refCount i + 1 < USIZE_MOD) :
    Inv (p.retain i) := by
  obtain ⟨hss, hhs, hcap, hbytes, hnodup, hfree_lt, hfree_zero, hzero_mem, hvirgin,
    htrail⟩ := hI
  have hicap : i < p.capacity := by
    by_contra hge
    rw [refCount_eq_zero_of_cap_le p (by omega) htrail] at h1
    omega
  have hhb : i * p.slot_size + USIZE_BYTES ≤ p.buffer.length :=
    header_le_length p hicap (by omega) hcap
  have hitail : i < p.tail := by
    by_contra hge
    rw [hvirgin i hicap (by omega)] at h1
    omega
  have hrc : (p.retain i).refCount i = p.refCount i + 1 :=
    (refCount_retain_same p i hhb).trans (Nat.mod_eq_of_lt h2)
  have hrc_ne : ∀ j, j ≠ i → (p.retain i).refCount j = p.refCount j := by
    intro j hj
    rw [Pool.retain]
    exact refCount_setRefCount_ne p _ (fun he => hj he.symm) (by omega)
  have hnotfree : i ∉ p.free_list := fun hmem => by
    rw [hfree_zero i hmem] at h1
    omega
  refine ⟨hss, hhs, ?_, ?_, hnodup, hfree_lt, ?_, ?_, ?_, ?_⟩
  · show p.capacity * p.slot_size ≤ (p.retain i).buffer.length
    rw [length_buffer_retain]
    exact hcap
  · show ∀ b ∈ (p.retain i).buffer, b < 256
    rw [Pool.retain]
    exact valid_setRefCount _ _ _ hbytes
  · intro j hj
    rw [hrc_ne j (fun he => hnotfree (he ▸ hj))]
    exact hfree_zero j hj
  · intro i2 hi2t hi2c hrc2
    rw [tail_retain] at hi2t
    rw [capacity_retain] at hi2c
    by_cases hii : i2 = i
    · subst hii
      rw [hrc] at hrc2
      omega
    · rw [hrc_ne i2 hii] at hrc2
      exact hzero_mem i2 hi2t hi2c hrc2
  · intro i2 hi2c hi2t
    rw [capacity_retain] at hi2c
    rw [tail_retain] at hi2t
    have hii : i2 ≠ i := by omega
    rw [hrc_ne i2 hii]
    exact hvirgin i2 hi2c hi2t
  · intro k hk
    rw [capacity_retain, slot_size_retain] at hk
    show byteAt (p.retain i).buffer k = 0
    rw [Pool.retain, byteAt_setRefCount_out p _ _ k (Or.inr (by
      have := mul_slots_apart (s := p.slot_size) hicap
      omega))]
    exact htrail k hk

open Pool in
/-- A release that passes its assertion preserves the invariant. -/
theorem inv_release (p : Pool) (i : Nat) (p2 : Pool) (hI : Inv p)
    (h : p.release i = some p2) : Inv p2 := by
  obtain ⟨hss, hhs, hcap, hbytes, hnodup, hfree_lt, hfree_zero, hzero_mem, hvirgin,
    htrail⟩ := hI
  have hrcpos : 1 ≤ p.refCount i := by
    rcases Nat.eq_zero_or_pos (p.refCount i) with h0 | h0
    · rw [(release_eq_none_iff p i).mpr h0] at h
      cases h
    · exact h0
  have hicap : i < p.capacity := by
    by_contra hge
    rw [refCount_eq_zero_of_cap_le p (by omega) htrail] at hrcpos
    omega
  have hhb : i * p.slot_size + USIZE_BYTES ≤ p.buffer.length :=
    header_le_length p hicap (by omega) hcap
  have hitail : i < p.tail := by
    by_contra hge
    rw [hvirgin i hicap (by omega)] at hrcpos
    omega
  have hnotfree : i ∉ p.free_list := fun hmem => by
    rw [hfree_zero i hmem] at hrcpos
    omega
  have hrc_ne : ∀ j v, j ≠ i → (p.setRefCount i v).refCount j = p.refCount j := by
    intro j v hj
    exact refCount_setRefCount_ne p v (fun he => hj he.symm) (by omega)
  have hrcM : p.refCount i < USIZE_MOD := refCount_lt p i hbytes
  have htrail2 : ∀ v k, p.capacity * p.slot_size ≤ k →
      byteAt (p.setRefCount i v).buffer k = 0 := by
    intro v k hk
    rw [byteAt_setRefCount_out p _ _ k (Or.inr (by
      have := mul_slots_apart (s := p.slot_size) hicap
      omega))]
    exact htrail k hk
  rcases Nat.lt_or_ge (p.refCount i) 2 with hsm | hbg
  · have hr1 : p.refCount i = 1 := by omega
    rw [release_one p i hr1] at h
    injection h with h
    subst h
    have hrci : (p.setRefCount i 0).refCount i = 0 := by
      rw [refCount_setRefCount_same _ _ _ hhb, Nat.zero_mod]
    refine ⟨hss, hhs, ?_, ?_, ?_, ?_, ?_, ?_, ?_, ?_⟩
    · show p.capacity * p.slot_size ≤ (p.setRefCount i 0).buffer.length
      rw [length_buffer_setRefCount]
      exact hcap
    · exact valid_setRefCount _ _ _ hbytes
    · show (p.free_list ++ [i]).Nodup
      rw [List.nodup_append]
      refine ⟨hnodup, List.nodup_singleton i, fun a ha hb => ?_⟩
      rw [List.mem_singleton] at hb
      exact hnotfree (hb ▸ ha)
    · intro j hj
      have hj' : j ∈ p.free_list ++ [i] := hj
      show j < p.tail ∧ j < p.capacity
      rcases List.mem_append.mp hj' with hj2 | hj2
      · exact hfree_lt j hj2
      · rw [List.mem_singleton] at hj2
        subst hj2
        exact ⟨hitail, hicap⟩
    · intro j hj
      have hj' : j ∈ p.free_list ++ [i] := hj
      show (p.setRefCount i 0).refCount j = 0
      rcases List.mem_append.mp hj' with hj2 | hj2
      · rw [hrc_ne j 0 (fun he => hnotfree (he ▸ hj2))]
        exact hfree_zero j hj2
      · rw [List.mem_singleton] at hj2
        subst hj2
        exact hrci
    · intro i2 hi2t hi2c hrc2
      have hi2t' : i2 < p.tail := hi2t
      have hi2c' : i2 < p.capacity := hi2c
      show i2 ∈ p.free_list ++ [i]
      by_cases hii : i2 = i
      · subst hii
        exact List.mem_append.mpr (Or.inr (List.mem_singleton.mpr rfl))
      · have hrc2' : (p.setRefCount i 0).refCount i2 = 0 := hrc2
        rw [hrc_ne i2 0 hii] at hrc2'
        exact List.mem_append.mpr (Or.inl (hzero_mem i2 hi2t' hi2c' hrc2'))
    · intro i2 hi2c hi2t
      have hi2c' : i2 < p.capacity := hi2c
      have hi2t' : p.tail ≤ i2 := hi2t
      have hii : i2 ≠ i := by omega
      show (p.setRefCount i 0).refCount i2 = 0
      rw [hrc_ne i2 0 hii]
      exact hvirgin i2 hi2c' hi2t'
    · intro k hk
      exact htrail2 0 k hk
  · rw [release_many p i hbg] at h
    injection h with h
    subst h
    have hrci : (p.setRefCount i (p.refCount i - 1)).refCount i = p.refCount i - 1 := by
      rw [refCount_setRefCount_same _ _ _ hhb, Nat.mod_eq_of_lt (by omega)]
    refine ⟨hss, hhs, ?_, ?_, hnodup, hfree_lt, ?_, ?_, ?_, ?_⟩
    · show p.capacity * p.slot_size ≤ (p.setRefCount i (p.refCount i - 1)).buffer.length
      rw [length_buffer_setRefCount]
      exact hcap
    · exact valid_setRefCount _ _ _ hbytes
    · intro j hj
      have hj' : j ∈ p.free_list := hj
      rw [hrc_ne j _ (fun he => hnotfree (he ▸ hj'))]
      exact hfree_zero j hj'
    · intro i2 hi2t hi2c hrc2
      have hi2t' : i2 < p.tail := hi2t
      have hi2c' : i2 < p.capacity := hi2c
      by_cases hii : i2 = i
      · subst hii
        rw [hrci] at hrc2
        omega
      · rw [hrc_ne i2 _ hii] at hrc2
        exact hzero_mem i2 hi2t' hi2c' hrc2
    · intro i2 hi2c hi2t
      have hi2c' : i2 < p.capacity := hi2c
      have hi2t' : p.tail ≤ i2 := hi2t
      have hii : i2 ≠ i := by omega
      rw [hrc_ne i2 _ hii]
      exact hvirgin i2 hi2c' hi2t'
    · intro k hk
      exact htrail2 _ k hk

open Pool in
/-- A successful slot claim preserves the invariant; moreover the claimed
slot lies below capacity and tail, ends with ref count exactly 1, the live
count grows by one, and the free list either lost its popped front or was
and stays empty with tail bumped. -/
theorem inv_claim_ok (p : Pool) (i : Nat) (p1 : Pool) (hI : Inv p)
    (h : p.claim_free_index = (Except.ok i, p1)) :
    Inv p1 ∧ i < p.capacity ∧ i < p1.tail ∧ p1.refCount i = 1 ∧
    p1.live_count = p.live_count + 1 ∧
    ((p.free_list = i :: p1.free_list ∧ p1.tail = p.tail) ∨
      (p.free_list = [] ∧ p1.free_list = [] ∧ p1.tail = p.tail + 1 ∧ i = p.tail)) := by
  obtain ⟨hss, hhs, hcap, hbytes, hnodup, hfree_lt, hfree_zero, hzero_mem, hvirgin,
    htrail⟩ := hI
  rw [claim_eq_internal] at h
  have hlivebound : p.free_list.length ≤ p.tail :=
    length_le_of_nodup_lt hnodup (fun x hx => (hfree_lt x hx).1)
  rcases internal_alloc_cases p with ⟨j, rest, hf, he⟩ | ⟨hf, hlt, he⟩ | ⟨hf, hge, he⟩
  · -- pop the front of the free list, then retain it
    rw [he] at h
    injection h with h1 h2
    injection h1 with h1
    have h1s : i = j := h1.symm
    subst h1s
    subst h2
    have hjmem : i ∈ p.free_list := by
      rw [hf]
      exact List.mem_cons_self ..
    obtain ⟨hitail, hicap⟩ := hfree_lt i hjmem
    have hrc0 : p.refCount i = 0 := hfree_zero i hjmem
    have hhb : i * p.slot_size + USIZE_BYTES ≤ p.buffer.length :=
      header_le_length p hicap (by omega) hcap
    have hninr : i ∉ rest := by
      rw [hf] at hnodup
      exact (List.nodup_cons.mp hnodup).1
    have hnodupr : rest.Nodup := by
      rw [hf] at hnodup
      exact (List.nodup_cons.mp hnodup).2
    have hrc1 : (Pool.retain { p with free_list := rest } i).refCount i = 1 := by
      rw [refCount_retain_same { p with free_list := rest } i hhb]
      show (p.refCount i + 1) % USIZE_MOD = 1
      rw [hrc0]
      norm_num [USIZE_MOD]
    have hrc_ne2 : ∀ j2, j2 ≠ i →
        (Pool.retain { p with free_list := rest } i).refCount j2 = p.refCount j2 :=
      fun j2 hj2 =>
        refCount_retain_ne { p with free_list := rest } hj2
          (show USIZE_BYTES ≤ p.slot_size by omega)
    refine ⟨⟨hss, hhs, ?_, ?_, hnodupr, ?_, ?_, ?_, ?_, ?_⟩, hicap, hitail, hrc1, ?_, ?_⟩
    · show p.capacity * p.slot_size
        ≤ (Pool.retain { p with free_list := rest } i).buffer.length
      rw [length_buffer_retain]
      exact hcap
    · show ∀ b ∈ (Pool.retain { p with free_list := rest } i).buffer, b < 256
      rw [Pool.retain]
      exact valid_setRefCount _ _ _ hbytes
    · intro j2 hj2
      have hj2' : j2 ∈ rest := hj2
      show j2 < p.tail ∧ j2 < p.capacity
      refine hfree_lt j2 ?_
      rw [hf]
      exact List.mem_cons_of_mem _ hj2'
    · intro j2 hj2
      have hj2' : j2 ∈ rest := hj2
      rw [hrc_ne2 j2 (fun he2 => hninr (he2 ▸ hj2'))]
      refine hfree_zero j2 ?_
      rw [hf]
      exact List.mem_cons_of_mem _ hj2'
    · intro i2 hi2t hi2c hrc2
      have hi2t' : i2 < p.tail := hi2t
      have hi2c' : i2 < p.capacity := hi2c
      show i2 ∈ rest
      by_cases hii : i2 = i
      · subst hii
        rw [hrc1] at hrc2
        cases hrc2
      · rw [hrc_ne2 i2 hii] at hrc2
        have := hzero_mem i2 hi2t' hi2c' hrc2
        rw [hf] at this
        rcases List.mem_cons.mp this with h3 | h3
        · exact absurd h3 hii
        · exact h3
    · intro i2 hi2c hi2t
      have hi2c' : i2 < p.capacity := hi2c
      have hi2t' : p.tail ≤ i2 := hi2t
      have hii : i2 ≠ i := by omega
      rw [hrc_ne2 i2 hii]
      exact hvirgin i2 hi2c' hi2t'
    · intro k hk
      have hk' : p.capacity * p.slot_size ≤ k := hk
      show byteAt (Pool.retain { p with free_list := rest } i).buffer k = 0
      rw [Pool.retain, byteAt_setRefCount_out _ _ _ k (Or.inr (by
        have := mul_slots_apart (s := p.slot_size) hicap
        show i * p.slot_size + USIZE_BYTES ≤ k
        omega))]
      exact htrail k hk'
    · show p.tail - rest.length = p.live_count + 1
      rw [Pool.live_count, hf, List.length_cons]
      have hlb : rest.length + 1 ≤ p.tail := by
        rw [hf, List.length_cons] at hlivebound
        exact hlivebound
      omega
    · left
      exact ⟨hf, rfl⟩
  · -- bump the tail into virgin space, then retain the fresh index
    rw [he] at h
    injection h with h1 h2
    injection h1 with h1
    have h1s : i = p.tail := h1.symm
    subst h1s
    subst h2
    have hrc0 : p.refCount p.tail = 0 := hvirgin p.tail hlt (Nat.le_refl _)
    have hhb : p.tail * p.slot_size + USIZE_BYTES ≤ p.buffer.length :=
      header_le_length p hlt (by omega) hcap
    have hrc1 : (Pool.retain { p with tail := p.tail + 1 } p.tail).refCount p.tail
        = 1 := by
      rw [refCount_retain_same { p with tail := p.tail + 1 } p.tail hhb]
      show (p.refCount p.tail + 1) % USIZE_MOD = 1
      rw [hrc0]
      norm_num [USIZE_MOD]
    have hrc_ne2 : ∀ j2, j2 ≠ p.tail →
        (Pool.retain { p with tail := p.tail + 1 } p.tail).refCount j2
          = p.refCount j2 :=
      fun j2 hj2 =>
        refCount_retain_ne { p with tail := p.tail + 1 } hj2
          (show USIZE_BYTES ≤ p.slot_size by omega)
    refine ⟨⟨hss, hhs, ?_, ?_, ?_, ?_, ?_, ?_, ?_, ?_⟩, hlt, by
      show p.tail < p.tail + 1
      omega, hrc1, ?_, ?_⟩
    · show p.capacity * p.slot_size
        ≤ (Pool.retain { p with tail := p.tail + 1 } p.tail).buffer.length
      rw [length_buffer_retain]
      exact hcap
    · show ∀ b ∈ (Pool.retain { p with tail := p.tail + 1 } p.tail).buffer, b < 256
      rw [Pool.retain]
      exact valid_setRefCount _ _ _ hbytes
    · exact hnodup
    · intro j2 hj2
      have hj2' : j2 ∈ p.free_list := hj2
      rw [hf] at hj2'
      cases hj2'
    · intro j2 hj2
      have hj2' : j2 ∈ p.free_list := hj2
      rw [hf] at hj2'
      cases hj2'
    · intro i2 hi2t hi2c hrc2
      have hi2t' : i2 < p.tail + 1 := hi2t
      have hi2c' : i2 < p.capacity := hi2c
      show i2 ∈ p.free_list
      by_cases hii : i2 = p.tail
      · subst hii
        rw [hrc1] at hrc2
        cases hrc2
      · have hi2lt : i2 < p.tail := by omega
        rw [hrc_ne2 i2 hii] at hrc2
        exact hzero_mem i2 hi2lt hi2c' hrc2
    · intro i2 hi2c hi2t
      have hi2c' : i2 < p.capacity := hi2c
      have hi2t' : p.tail + 1 ≤ i2 := hi2t
      have hii : i2 ≠ p.tail := by omega
      rw [hrc_ne2 i2 hii]
      exact hvirgin i2 hi2c' (by omega)
    · intro k hk
      have hk' : p.capacity * p.slot_size ≤ k := hk
      show byteAt (Pool.retain { p with tail := p.tail + 1 } p.tail).buffer k = 0
      rw [Pool.retain, byteAt_setRefCount_out _ _ _ k (Or.inr (by
        have := mul_slots_apart (s := p.slot_size) hlt
        show p.tail * p.slot_size + USIZE_BYTES ≤ k
        omega))]
      exact htrail k hk'
    · show (p.tail + 1) - p.free_list.length = p.live_count + 1
      rw [Pool.live_count, hf]
      simp
    · right
      exact ⟨hf, hf, rfl, rfl⟩
  · rw [he] at h
    injection h with h1 _
    cases h1

open Pool in
/-- A failed allocation preserves the invariant: only tail grows, past
capacity. -/
theorem inv_alloc_err (p : Pool) (hI : Inv p) (hf : p.free_list = [])
    (hge : p.capacity ≤ p.tail) : Inv { p with tail := p.tail + 1 } := by
  obtain ⟨hss, hhs, hcap, hbytes, hnodup, hfree_lt, hfree_zero, hzero_mem, hvirgin,
    htrail⟩ := hI
  refine ⟨hss, hhs, hcap, hbytes, hnodup, ?_, hfree_zero, ?_, ?_, htrail⟩
  · intro j hj
    have hj' : j ∈ p.free_list := hj
    rw [hf] at hj'
    cases hj'
  · intro i2 hi2t hi2c hrc2
    have hi2c' : i2 < p.capacity := hi2c
    exact hzero_mem i2 (by omega) hi2c' hrc2
  · intro i2 hi2c hi2t
    have hi2c' : i2 < p.capacity := hi2c
    have hi2t' : p.tail + 1 ≤ i2 := hi2t
    exact hvirgin i2 hi2c' (by omega)

open Pool in
/-- The payload byte-copy of allocateCopy preserves the invariant: it
writes only inside the payload region of a slot below capacity and touches
no header byte. -/
theorem inv_copy (p1 : Pool) (i src : Nat) (hI : Inv p1) (hicap : i < p1.capacity) :
    Inv { p1 with
      buffer := copyBytes p1.buffer (p1.raw_contents_off src) (p1.raw_contents_off i)
          p1.sizeT } := by
  obtain ⟨hss, hhs, hcap, hbytes, hnodup, hfree_lt, hfree_zero, hzero_mem, hvirgin,
    htrail⟩ := hI
  have hbyte : ∀ k, byteAt (copyBytes p1.buffer (p1.raw_contents_off src)
      (p1.raw_contents_off i) p1.sizeT) k
      = if i * p1.slot_size + p1.header_size ≤ k ∧
           k < i * p1.slot_size + p1.header_size + p1.sizeT ∧ k < p1.buffer.length
        then byteAt p1.buffer (src * p1.slot_size + p1.header_size
                + (k - (i * p1.slot_size + p1.header_size)))
        else byteAt p1.buffer k := by
    intro k
    rw [copyBytes, byteAt_copyBytesAux]
    rfl
  have hslots := mul_slots_apart (s := p1.slot_size) hicap
  have hrc_all : ∀ j,
      ({ p1 with
        buffer := copyBytes p1.buffer (p1.raw_contents_off src) (p1.raw_contents_off i)
            p1.sizeT } : Pool).refCount j = p1.refCount j := by
    intro j
    refine refCount_congr p1 _ j rfl fun m hm => ?_
    show byteAt (copyBytes p1.buffer (p1.raw_contents_off src) (p1.raw_contents_off i)
        p1.sizeT) (j * p1.slot_size + m) = byteAt p1.buffer (j * p1.slot_size + m)
    rw [hbyte, if_neg ?_]
    rcases Nat.lt_trichotomy j i with hj | hj | hj
    · have := mul_slots_apart (s := p1.slot_size) hj
      omega
    · subst hj
      omega
    · have := mul_slots_apart (s := p1.slot_size) hj
      omega
  refine ⟨hss, hhs, ?_, ?_, hnodup, hfree_lt, ?_, ?_, ?_, ?_⟩
  · show p1.capacity * p1.slot_size ≤ (copyBytes p1.buffer (p1.raw_contents_off src)
        (p1.raw_contents_off i) p1.sizeT).length
    rw [copyBytes, length_copyBytesAux]
    exact hcap
  · show ∀ b ∈ copyBytes p1.buffer (p1.raw_contents_off src) (p1.raw_contents_off i)
        p1.sizeT, b < 256
    rw [copyBytes]
    exact valid_copyBytesAux _ _ _ _ _ hbytes fun s => byteAt_lt_of_valid hbytes
  · intro j hj
    have hj' : j ∈ p1.free_list := hj
    rw [hrc_all j]
    exact hfree_zero j hj'
  · intro i2 hi2t hi2c hrc2
    have hi2t' : i2 < p1.tail := hi2t
    have hi2c' : i2 < p1.capacity := hi2c
    rw [hrc_all i2] at hrc2
    exact hzero_mem i2 hi2t' hi2c' hrc2
  · intro i2 hi2c hi2t
    have hi2c' : i2 < p1.capacity := hi2c
    have hi2t' : p1.tail ≤ i2 := hi2t
    rw [hrc_all i2]
    exact hvirgin i2 hi2c' hi2t'
  · intro k hk
    have hk' : p1.capacity * p1.slot_size ≤ k := hk
    show byteAt (copyBytes p1.buffer (p1.raw_contents_off src) (p1.raw_contents_off i)
        p1.sizeT) k = 0
    rw [hbyte, if_neg (by omega)]
    exact htrail k hk'

open Pool in
/-- Every handle-disciplined operation preserves the invariant. -/
theorem inv_step (p p2 : Pool) (hI : Inv p) (h : SafeStep p p2) : Inv p2 := by
  cases h with
  | alloc_ok i p2 he =>
    exact (inv_claim_ok p i p2 hI (by rw [claim_eq_internal]; exact he)).1
  | alloc_err e p2 he =>
    rcases internal_alloc_cases p with ⟨j, rest, hf2, he2⟩ | ⟨hf2, hlt2, he2⟩ |
      ⟨hf2, hge2, he2⟩ <;> rw [he2] at he <;> injection he with h1 h2
    · simp at h1
    · simp at h1
    · subst h2
      exact inv_alloc_err p hI hf2 hge2
  | alloc_copy src r p2 hlive he =>
    rcases hc : p.claim_free_index with ⟨rr, p1⟩
    cases rr with
    | ok j =>
      have hrec : p.alloc_with_contents_of src
          = (Except.ok j,
              { p1 with
                buffer := copyBytes p1.buffer (p1.raw_contents_off src)
                    (p1.raw_contents_off j) p1.sizeT }) := by
        simp [Pool.alloc_with_contents_of, hc]
      rw [hrec] at he
      injection he with _ h2
      subst h2
      obtain ⟨hI1, hjcap, _⟩ := inv_claim_ok p j p1 hI hc
      have hcapeq : p1.capacity = p.capacity := by
        have h5 := (claim_free_index_fields p).2.2.2.1
        rw [hc] at h5
        exact h5
      exact inv_copy p1 j src hI1 (by omega)
    | error e2 =>
      have hrec : p.alloc_with_contents_of src = (Except.error e2, p1) := by
        simp [Pool.alloc_with_contents_of, hc]
      rw [hrec] at he
      injection he with _ h2
      subst h2
      rw [claim_eq_internal] at hc
      rcases internal_alloc_cases p with ⟨j, rest, hf2, he2⟩ | ⟨hf2, hlt2, he2⟩ |
        ⟨hf2, hge2, he2⟩ <;> rw [he2] at hc <;> injection hc with h1 h2
      · simp at h1
      · simp at h1
      · subst h2
        exact inv_alloc_err p hI hf2 hge2
  | retain_live i h1 h2 => exact inv_retain_live p i hI h1 h2
  | release_ok i p2 he => exact inv_release p i p2 hI he

/-- Every reachable pool state satisfies the invariant. -/
theorem inv_reach (sizeT size : Nat) (p : Pool) (h : Reach sizeT size p) : Inv p := by
  induction h with
  | init => exact inv_init sizeT size
  | step _ hs ih => exact inv_step _ _ ih hs

open Pool in
/-- Claim C1 counterexample: on a pool over a one-byte buffer (capacity 0)
the first allocation attempt fails, yet it bumps tail to 1, which exceeds
capacity — refuting that tail never exceeds capacity after each operation. -/
theorem c1_tail_exceeds_capacity :
    ¬ (((Pool.new 4 (List.replicate 1 0)).internal_alloc).2.tail
        ≤ ((Pool.new 4 (List.replicate 1 0)).internal_alloc).2.capacity) := by
  decide

open Pool in
/-- Claim C1 (amended): across every pool operation tail is monotonically
non-decreasing and capacity is unchanged; every operation started with
tail < capacity keeps tail ≤ capacity, and an operation started with
tail ≤ capacity leaves tail ≤ capacity + 1 — the only way past capacity is
a failed allocation, whose unconditional compare-and-swap bump survives the
capacity check. -/
theorem c1_tail_monotone (p p2 : Pool) (h : PoolStep p p2) :
    p.tail ≤ p2.tail ∧ p2.capacity = p.capacity ∧
    (p.tail < p.capacity → p2.tail ≤ p.capacity) ∧
    (p.tail ≤ p.capacity → p2.tail ≤ p.capacity + 1) := by
  cases h with
  | alloc =>
    obtain ⟨hcap, h1, h2, h3⟩ := internal_alloc_tail_facts p
    exact ⟨h1, hcap, h3, fun _ => by omega⟩
  | alloc_copy src =>
    obtain ⟨_, ht, hc2, _⟩ := alloc_with_contents_of_snd p src
    obtain ⟨hcap, h1, h2, h3⟩ := internal_alloc_tail_facts p
    rw [ht, hc2]
    exact ⟨h1, hcap, h3, fun _ => by omega⟩
  | retain i =>
    simp only [tail_retain, capacity_retain]
    exact ⟨Nat.le_refl _, trivial, fun h => Nat.le_of_lt h, fun _ => by omega⟩
  | release i p2 hrel =>
    obtain ⟨ht, hcap, _⟩ := release_some_fields p i p2 hrel
    exact ⟨by omega, hcap, fun _ => by omega, fun _ => by omega⟩
  | clear =>
    simp only [tail_clear, capacity_clear]
    exact ⟨Nat.le_refl _, trivial, fun h => Nat.le_of_lt h, fun _ => by omega⟩

open Pool in
/-- Claim C1 witness: the amended statement evaluated on the failed first
allocation over a one-byte buffer. -/
theorem c1_tail_monotone_witness :
    (Pool.new 4 (List.replicate 1 0)).tail
        ≤ ((Pool.new 4 (List.replicate 1 0)).internal_alloc).2.tail ∧
    ((Pool.new 4 (List.replicate 1 0)).internal_alloc).2.capacity
        = (Pool.new 4 (List.replicate 1 0)).capacity ∧
    ((Pool.new 4 (List.replicate 1 0)).tail < (Pool.new 4 (List.replicate 1 0)).capacity →
      ((Pool.new 4 (List.replicate 1 0)).internal_alloc).2.tail
        ≤ (Pool.new 4 (List.replicate 1 0)).capacity) ∧
    ((Pool.new 4 (List.replicate 1 0)).tail ≤ (Pool.new 4 (List.replicate 1 0)).capacity →
      ((Pool.new 4 (List.replicate 1 0)).internal_alloc).2.tail
        ≤ (Pool.new 4 (List.replicate 1 0)).capacity + 1) :=
  c1_tail_monotone _ _ (PoolStep.alloc _)

open Pool in
/-- Claim C2 counterexample: the failing first allocation over a one-byte
buffer does return the OutOfMemory error, but it does not leave the pool
state unchanged — tail and liveCount both grow by one. -/
theorem c2_oom_changes_state :
    ((Pool.new 4 (List.replicate 1 0)).internal_alloc).1 = Except.error "OOM" ∧
    ((Pool.new 4 (List.replicate 1 0)).internal_alloc).2.tail
        ≠ (Pool.new 4 (List.replicate 1 0)).tail ∧
    ((Pool.new 4 (List.replicate 1 0)).internal_alloc).2.live_count
        ≠ (Pool.new 4 (List.replicate 1 0)).live_count :=
  ⟨rfl, by decide, by decide⟩

open Pool in
/-- Claim C2 (amended): with an empty free list and tail at or past
capacity, allocate returns the OutOfMemory error and consumes no slot — the
buffer (hence every ref count) and the free list are unchanged — but the
unconditional compare-and-swap bump increments tail, and with it liveCount,
by one.  In particular the first allocation over a buffer smaller than one
slot fails this way. -/
theorem c2_alloc_oom (p : Pool) (hf : p.free_list = []) (hge : p.capacity ≤ p.tail) :
    (p.internal_alloc).1 = Except.error "OOM" ∧
    (p.internal_alloc).2.buffer = p.buffer ∧
    (p.internal_alloc).2.free_list = p.free_list ∧
    (∀ i, (p.internal_alloc).2.refCount i = p.refCount i) ∧
    (p.internal_alloc).2.tail = p.tail + 1 ∧
    (p.internal_alloc).2.live_count = p.live_count + 1 := by
  have heq : p.internal_alloc = (Except.error "OOM", { p with tail := p.tail + 1 }) := by
    simp [Pool.internal_alloc, Pool.claim_free_index, hf, Pool.push_back_alloc, hge]
  rw [heq]
  refine ⟨rfl, rfl, rfl, fun i => rfl, rfl, ?_⟩
  simp [Pool.live_count, hf]

open Pool in
/-- Claim C2 witness: the amended statement evaluated on the one-byte
buffer pool. -/
theorem c2_alloc_oom_witness :
    ((Pool.new 4 (List.replicate 1 0)).internal_alloc).1 = Except.error "OOM" ∧
    ((Pool.new 4 (List.replicate 1 0)).internal_alloc).2.refCount 0
        = (Pool.new 4 (List.replicate 1 0)).refCount 0 ∧
    ((Pool.new 4 (List.replicate 1 0)).internal_alloc).2.tail
        = (Pool.new 4 (List.replicate 1 0)).tail + 1 ∧
    ((Pool.new 4 (List.replicate 1 0)).internal_alloc).2.live_count
        = (Pool.new 4 (List.replicate 1 0)).live_count + 1 := by
  obtain ⟨h1, _, _, h4, h5, h6⟩ :=
    c2_alloc_oom (Pool.new 4 (List.replicate 1 0)) rfl (by decide)
  exact ⟨h1, h4 0, h5, h6⟩

open Pool in
/-- Claim C3 counterexample: allocate followed by clear — both operations
of the claimed sequence — yields a reachable state where slot 0 has tail
above it, lies below capacity, has ref count 0, and yet appears zero times
(not once) in the free list: clear zero-fills the headers without touching
the free list. -/
theorem c3_clear_breaks_invariant :
    0 < ((Pool.new 4 (List.replicate 12 0)).internal_alloc).2.clear.tail ∧
    0 < ((Pool.new 4 (List.replicate 12 0)).internal_alloc).2.clear.capacity ∧
    ((Pool.new 4 (List.replicate 12 0)).internal_alloc).2.clear.refCount 0 = 0 ∧
    ((Pool.new 4 (List.replicate 12 0)).internal_alloc).2.clear.free_list.count 0
      = 0 := by
  decide

open Pool in
/-- Claim C3 (amended): in every pool state reachable from construction
over a zero-initialized buffer by allocation attempts, allocate-copy from a
live source, retain on live slots below overflow, and releases that pass
their assertion — with clear excluded — every index below both tail and
capacity (failed allocations push tail past capacity; the indices between
denote no slot) has ref count at least 0, appears in the free list exactly
once when its count is 0, and appears zero times when its count is at
least 1. -/
theorem c3_free_list_invariant (sizeT size : Nat) (p : Pool)
    (h : Reach sizeT size p) :
    ∀ i, i < p.tail → i < p.capacity →
      0 ≤ p.refCount i ∧
      (p.refCount i = 0 → p.free_list.count i = 1) ∧
      (1 ≤ p.refCount i → p.free_list.count i = 0) := by
  have hI := inv_reach sizeT size p h
  intro i hit hicap
  refine ⟨Nat.zero_le _, fun h0 => ?_, fun h1 => ?_⟩
  · exact List.count_eq_one_of_mem hI.hnodup (hI.hzero_mem i hit hicap h0)
  · rw [List.count_eq_zero]
    intro hmem
    rw [hI.hfree_zero i hmem] at h1
    omega

open Pool in
/-- Claim C3 witness: the invariant evaluated on the state after one
allocation over a 12-byte zeroed buffer — the live slot 0 appears zero
times in the free list. -/
theorem c3_free_list_invariant_witness :
    ((Pool.new 4 (List.replicate 12 0)).internal_alloc).2.free_list.count 0 = 0 := by
  have h := c3_free_list_invariant 4 12
    ((Pool.new 4 (List.replicate 12 0)).internal_alloc).2
    (Reach.step Reach.init (SafeStep.alloc_ok _ 0 _ rfl))
  exact (h 0 (by decide) (by decide)).2.2 (by decide)

open Pool in
/-- Claim C4 counterexample: from a reachable state whose free list is
[0, 1], allocate pops index 0 and the subsequent release appends 0 to the
back, leaving free list [1, 0]: the released index is not the front
element.  (liveCount does return to its pre-allocation value.) -/
theorem c4_released_index_not_front :
    (c4s2.release 0).isSome = true ∧ (c4s3.release 1).isSome = true ∧
    c4s4.free_list = [0, 1] ∧ (c4s4.internal_alloc).1 = Except.ok 0 ∧
    ((c4s4.internal_alloc).2.release 0).isSome = true ∧
    c4s5.free_list = [1, 0] ∧ c4s5.free_list.head? ≠ some 0 ∧
    c4s5.live_count = c4s4.live_count :=
  ⟨by decide, by decide, by decide, rfl, by decide, by decide, by decide, by decide⟩

open Pool in
/-- Claim C4 (amended): in every reachable pool state, a successful
allocate followed by release of the returned index restores liveCount to
its pre-allocation value and places the released index at the BACK of the
free list (the code pushes freed indices to the back; the released index is
the front only when the free list is empty, as in the repository's own
test). -/
theorem c4_alloc_release_roundtrip (sizeT size : Nat) (p : Pool)
    (h : Reach sizeT size p) (i : Nat) (p1 : Pool)
    (halloc : p.internal_alloc = (Except.ok i, p1)) :
    ∃ p2, p1.release i = some p2 ∧ p2.live_count = p.live_count ∧
      p2.free_list.getLast? = some i := by
  have hI := inv_reach sizeT size p h
  obtain ⟨hI1, hicap, hitail, hrc1, hlive, hdisj⟩ :=
    inv_claim_ok p i p1 hI (by rw [claim_eq_internal]; exact halloc)
  refine ⟨_, release_one p1 i hrc1, ?_, ?_⟩
  · show ({ p1.setRefCount i 0 with
        free_list := p1.free_list ++ [i] } : Pool).live_count = p.live_count
    show p1.tail - (p1.free_list ++ [i]).length = p.live_count
    rw [List.length_append]
    have hlive' : p1.tail - p1.free_list.length = p.live_count + 1 := hlive
    have hlb : p1.free_list.length + 1 ≤ p1.tail := by
      have hb := length_le_of_nodup_lt hI1.hnodup fun x hx => (hI1.hfree_lt x hx).1
      rcases hdisj with ⟨hpf, hpt⟩ | ⟨hpf, hp1f, hpt, hpi⟩
      · have hbp := length_le_of_nodup_lt hI.hnodup fun x hx => (hI.hfree_lt x hx).1
        rw [hpf, List.length_cons] at hbp
        omega
      · rw [hp1f]
        simp
        have := hitail
        omega
    simp only [List.length_singleton]
    omega
  · show (p1.free_list ++ [i]).getLast? = some i
    exact List.getLast?_concat _

open Pool in
/-- Claim C4 witness: allocate then release on a fresh 12-byte pool —
liveCount returns to 0 and the released index 0 is the last (and only)
free-list element. -/
theorem c4_alloc_release_roundtrip_witness :
    (((Pool.new 4 (List.replicate 12 0)).internal_alloc).2.release 0).map
        (fun q => (q.live_count, q.free_list.getLast?))
      = some ((Pool.new 4 (List.replicate 12 0)).live_count, some 0) := by
  obtain ⟨p2, heq, hlive, hlast⟩ :=
    c4_alloc_release_roundtrip 4 12 (Pool.new 4 (List.replicate 12 0)) Reach.init
      0 ((Pool.new 4 (List.replicate 12 0)).internal_alloc).2 rfl
  rw [heq]
  show some (p2.live_count, p2.free_list.getLast?) = _
  rw [hlive, hlast]

open Pool in
/-- Claim C5: release(i) triggers the process-terminating assertion exactly
when the ref count of slot i is zero; otherwise it decrements the count by
exactly one, keeps tail unchanged, and appends i to the back of the free
list exactly when the count before the call was one.  The side conditions
require only that the buffer holds genuine bytes and that slot i's header
lies inside the buffer. -/
theorem c5_release_spec (p : Pool) (i : Nat) :
    (p.release i = none ↔ p.refCount i = 0) ∧
    ((∀ b ∈ p.buffer, b < 256) → i * p.slot_size + USIZE_BYTES ≤ p.buffer.length →
      1 ≤ p.refCount i →
      ∃ p2, p.release i = some p2 ∧
        p2.refCount i = p.refCount i - 1 ∧
        p2.tail = p.tail ∧
        p2.free_list = (if p.refCount i = 1 then p.free_list ++ [i] else p.free_list)) := by
  refine ⟨release_eq_none_iff p i, fun hv hb h1 => ?_⟩
  rcases Nat.lt_or_ge (p.refCount i) 2 with h | h
  · have hr1 : p.refCount i = 1 := by omega
    refine ⟨_, release_one p i hr1, ?_, rfl, ?_⟩
    · show (p.setRefCount i 0).refCount i = p.refCount i - 1
      rw [refCount_setRefCount_same _ _ _ hb, hr1, Nat.zero_mod]
    · rw [if_pos hr1]
  · have hlt : p.refCount i - 1 < USIZE_MOD := by
      have := refCount_lt p i hv
      omega
    refine ⟨_, release_many p i h, ?_, rfl, ?_⟩
    · rw [refCount_setRefCount_same _ _ _ hb, Nat.mod_eq_of_lt hlt]
    · rw [if_neg (by omega), free_list_setRefCount]

open Pool in
/-- Claim C5 witness: on a pool whose slot 0 holds ref count 2, release
succeeds, leaves count 1, and does not touch the free list; and release is
fatal exactly on count zero there after a second release. -/
theorem c5_release_spec_witness :
    ((poolRC2.release 0).map fun q => (q.refCount 0, q.tail, q.free_list))
      = some (1, 1, ([] : List Nat)) := by
  obtain ⟨p2, heq, hrc, htail, hfree⟩ :=
    (c5_release_spec poolRC2 0).2 (by decide) (by decide) (by decide)
  rw [heq]
  show some (p2.refCount 0, p2.tail, p2.free_list) = some (1, 1, ([] : List Nat))
  rw [hrc, htail, hfree]
  decide

open Pool in
/-- Claim C6: construction computes the layout arithmetic exactly —
header_size is the platform word, slot_size = header_size + size_of(T),
capacity = floor(buffer_length / slot_size); for a 4-byte payload type this
gives slot_size 12, and capacity 8 over a 100-byte buffer. -/
theorem c6_construction_layout (sizeT : Nat) (mem : List Nat) :
    ((Pool.new sizeT mem).header_size = USIZE_BYTES ∧
      (Pool.new sizeT mem).slot_size = (Pool.new sizeT mem).header_size + sizeT ∧
      (Pool.new sizeT mem).capacity = mem.length / (Pool.new sizeT mem).slot_size ∧
      (Pool.new sizeT mem).buffer_size = mem.length ∧
      (Pool.new sizeT mem).tail = 0) ∧
    (Pool.new 4 (List.replicate 100 0)).slot_size = 12 ∧
    (Pool.new 4 (List.replicate 100 0)).capacity = 8 :=
  ⟨⟨rfl, Nat.add_comm sizeT USIZE_BYTES, rfl, rfl, rfl⟩, by decide, by decide⟩

open Pool in
/-- Claim C8: clear zero-fills every byte in the range of the buffer size,
touches no byte beyond it, and leaves tail, the free list, capacity,
slot_size, header_size and buffer_size unchanged. -/
theorem c8_clear_spec (p : Pool) :
    (∀ k, k < p.buffer_size → byteAt p.clear.buffer k = 0) ∧
    (∀ k, p.buffer_size ≤ k → byteAt p.clear.buffer k = byteAt p.buffer k) ∧
    p.clear.tail = p.tail ∧ p.clear.free_list = p.free_list ∧
    p.clear.capacity = p.capacity ∧ p.clear.slot_size = p.slot_size ∧
    p.clear.header_size = p.header_size ∧ p.clear.buffer_size = p.buffer_size := by
  refine ⟨?_, ?_, rfl, rfl, rfl, rfl, rfl, rfl⟩
  · intro k hk
    show byteAt (zeroFill p.buffer_size p.buffer) k = 0
    rw [byteAt_zeroFill]
    by_cases h : k < p.buffer.length
    · rw [if_pos ⟨hk, h⟩]
    · rw [if_neg (by omega), byteAt, List.getD_eq_default _ _ (by omega)]
  · intro k hk
    show byteAt (zeroFill p.buffer_size p.buffer) k = byteAt p.buffer k
    rw [byteAt_zeroFill, if_neg (by omega)]

open Pool in
/-- Claim C8 witness: clear evaluated on a pool over a 12-byte buffer of
nonzero bytes — byte 3 becomes 0 while tail and the free list survive. -/
theorem c8_clear_spec_witness :
    byteAt (Pool.new 4 (List.replicate 12 9)).clear.buffer 3 = 0 ∧
    (Pool.new 4 (List.replicate 12 9)).clear.tail
        = (Pool.new 4 (List.replicate 12 9)).tail ∧
    (Pool.new 4 (List.replicate 12 9)).clear.free_list
        = (Pool.new 4 (List.replicate 12 9)).free_list := by
  obtain ⟨h1, _, h3, h4, _⟩ := c8_clear_spec (Pool.new 4 (List.replicate 12 9))
  exact ⟨h1 3 (by decide), h3, h4⟩

open Pool in
/-- Claim C7: allocateCopy claims its new index by exactly the allocate
algorithm (identical claim outcome), byte-copies exactly size_of(T) payload
bytes — not the header — from the source slot into the new slot, and
leaves the source slot's ref count and payload bytes untouched.  The side
conditions ask for a distinct live source, the layout equations that hold
by construction, and that the new slot lie inside the buffer. -/
theorem c7_alloc_copy_spec (p : Pool) (src : Nat) :
    (p.alloc_with_contents_of src).1 = (p.internal_alloc).1 ∧
    (∀ i p2, p.alloc_with_contents_of src = (Except.ok i, p2) → src ≠ i →
      p.slot_size = p.sizeT + p.header_size → p.header_size = USIZE_BYTES →
      i * p.slot_size + p.header_size + p.sizeT ≤ p.buffer.length →
      (∀ k, k < p.sizeT →
        byteAt p2.buffer (i * p.slot_size + p.header_size + k)
          = byteAt p.buffer (src * p.slot_size + p.header_size + k)) ∧
      (∀ k, k < i * p.slot_size + p.header_size ∨
            i * p.slot_size + p.header_size + p.sizeT ≤ k →
        byteAt p2.buffer k = byteAt (p.internal_alloc).2.buffer k) ∧
      p2.refCount i = (p.internal_alloc).2.refCount i ∧
      p2.refCount src = p.refCount src ∧
      (∀ k, k < p.sizeT →
        byteAt p2.buffer (src * p.slot_size + p.header_size + k)
          = byteAt p.buffer (src * p.slot_size + p.header_size + k))) := by
  refine ⟨(alloc_with_contents_of_snd p src).1, ?_⟩
  intro i p2 heq hne hssz hhs hbnd
  rcases hc : p.claim_free_index with ⟨r, p1⟩
  cases r with
  | error e =>
    rw [show p.alloc_with_contents_of src = (Except.error e, p1) from by
      simp [Pool.alloc_with_contents_of, hc]] at heq
    injection heq with h1 _
    simp at h1
  | ok j =>
    have hrec : p.alloc_with_contents_of src
        = (Except.ok j,
            { p1 with
              buffer := copyBytes p1.buffer (p1.raw_contents_off src)
                  (p1.raw_contents_off j) p1.sizeT }) := by
      simp [Pool.alloc_with_contents_of, hc]
    rw [hrec] at heq
    injection heq with h1 h2
    injection h1 with h1
    have h1s : i = j := h1.symm
    subst h1s
    subst h2
    obtain ⟨hfs, hfh, hft, _, hfl⟩ := claim_free_index_fields p
    rw [hc] at hfs hfh hft hfl
    obtain ⟨v, hbuf1⟩ := claim_ok_buffer p i p1 hc
    have hia : (p.internal_alloc).2 = p1 := by rw [← claim_eq_internal, hc]
    have hd : p1.raw_contents_off i = i * p.slot_size + p.header_size := by
      rw [Pool.raw_contents_off, hfs, hfh]
    have hsoff : p1.raw_contents_off src = src * p.slot_size + p.header_size := by
      rw [Pool.raw_contents_off, hfs, hfh]
    have hp2 : ∀ k,
        byteAt (copyBytes p1.buffer (p1.raw_contents_off src) (p1.raw_contents_off i)
            p1.sizeT) k
          = if i * p.slot_size + p.header_size ≤ k ∧
               k < i * p.slot_size + p.header_size + p.sizeT ∧ k < p.buffer.length
            then byteAt p1.buffer (src * p.slot_size + p.header_size
                    + (k - (i * p.slot_size + p.header_size)))
            else byteAt p1.buffer k := by
      intro k
      rw [copyBytes, byteAt_copyBytesAux, hd, hsoff, hft, hfl]
    have hp1 : ∀ k, k < i * p.slot_size ∨ i * p.slot_size + USIZE_BYTES ≤ k →
        byteAt p1.buffer k = byteAt p.buffer k := by
      intro k hk
      rw [hbuf1, byteAt_writeLE, if_neg (by omega)]
    have hsep1 : ∀ k, k < p.sizeT →
        (src * p.slot_size + p.header_size + k < i * p.slot_size ∨
          i * p.slot_size + USIZE_BYTES ≤ src * p.slot_size + p.header_size + k) := by
      intro k hk
      rcases Nat.lt_or_ge src i with hlt | hge
      · left
        have h1 := mul_slots_apart (s := p.slot_size) hlt
        omega
      · right
        have h1 := mul_slots_apart (s := p.slot_size) (show i < src by omega)
        omega
    have hsep2 : ∀ k, k < p.sizeT →
        (src * p.slot_size + p.header_size + k < i * p.slot_size + p.header_size ∨
          i * p.slot_size + p.header_size + p.sizeT
            ≤ src * p.slot_size + p.header_size + k) := by
      intro k hk
      rcases Nat.lt_or_ge src i with hlt | hge
      · left
        have h1 := mul_slots_apart (s := p.slot_size) hlt
        omega
      · right
        have h1 := mul_slots_apart (s := p.slot_size) (show i < src by omega)
        omega
    have hsep3 : ∀ m, m < USIZE_BYTES →
        (src * p.slot_size + m < i * p.slot_size + p.header_size ∨
          i * p.slot_size + p.header_size + p.sizeT ≤ src * p.slot_size + m) := by
      intro m hm
      rcases Nat.lt_or_ge src i with hlt | hge
      · left
        have h1 := mul_slots_apart (s := p.slot_size) hlt
        omega
      · right
        have h1 := mul_slots_apart (s := p.slot_size) (show i < src by omega)
        omega
    have hsep4 : ∀ m, m < USIZE_BYTES →
        (src * p.slot_size + m < i * p.slot_size ∨
          i * p.slot_size + USIZE_BYTES ≤ src * p.slot_size + m) := by
      intro m hm
      rcases Nat.lt_or_ge src i with hlt | hge
      · left
        have h1 := mul_slots_apart (s := p.slot_size) hlt
        omega
      · right
        have h1 := mul_slots_apart (s := p.slot_size) (show i < src by omega)
        omega
    refine ⟨?_, ?_, ?_, ?_, ?_⟩
    · intro k hk
      show byteAt (copyBytes p1.buffer (p1.raw_contents_off src) (p1.raw_contents_off i)
          p1.sizeT) (i * p.slot_size + p.header_size + k) = _
      rw [hp2, if_pos (by omega)]
      rw [show src * p.slot_size + p.header_size
          + (i * p.slot_size + p.header_size + k - (i * p.slot_size + p.header_size))
          = src * p.slot_size + p.header_size + k by omega]
      exact hp1 _ (hsep1 k hk)
    · intro k hk
      rw [hia]
      show byteAt (copyBytes p1.buffer (p1.raw_contents_off src) (p1.raw_contents_off i)
          p1.sizeT) k = byteAt p1.buffer k
      rw [hp2, if_neg (by omega)]
    · rw [hia]
      refine refCount_congr p1 _ i (by exact hfs.trans hfs.symm) fun m hm => ?_
      show byteAt (copyBytes p1.buffer (p1.raw_contents_off src) (p1.raw_contents_off i)
          p1.sizeT) (i * p1.slot_size + m) = byteAt p1.buffer (i * p1.slot_size + m)
      rw [hfs, hp2, if_neg (by omega)]
    · refine refCount_congr p _ src (by exact hfs) fun m hm => ?_
      show byteAt (copyBytes p1.buffer (p1.raw_contents_off src) (p1.raw_contents_off i)
          p1.sizeT) (src * p.slot_size + m) = byteAt p.buffer (src * p.slot_size + m)
      rw [hp2, if_neg (by
        have := hsep3 m hm
        omega)]
      exact hp1 _ (hsep4 m hm)
    · intro k hk
      show byteAt (copyBytes p1.buffer (p1.raw_contents_off src) (p1.raw_contents_off i)
          p1.sizeT) (src * p.slot_size + p.header_size + k) = _
      rw [hp2, if_neg (by
        have := hsep2 k hk
        omega)]
      exact hp1 _ (hsep1 k hk)

open Pool in
/-- Claim C7 witness: on a two-slot pool whose live slot 0 carries payload
bytes 42,0,0,0, allocateCopy claims slot 1 and the payload byte 42 appears
at the new slot's payload offset while the source ref count is unchanged. -/
theorem c7_alloc_copy_spec_witness :
    byteAt ((poolCopyBase.alloc_with_contents_of 0).2).buffer 20 = 42 ∧
    ((poolCopyBase.alloc_with_contents_of 0).2).refCount 0 = poolCopyBase.refCount 0 ∧
    (poolCopyBase.alloc_with_contents_of 0).1 = (poolCopyBase.internal_alloc).1 := by
  obtain ⟨hfst, hrest⟩ := c7_alloc_copy_spec poolCopyBase 0
  obtain ⟨hcopy, _, _, hsrc, _⟩ :=
    hrest 1 ((poolCopyBase.alloc_with_contents_of 0).2) (by rfl) (by decide)
      (by decide) (by decide) (by decide)
  refine ⟨?_, hsrc, hfst⟩
  have h0 := hcopy 0 (by decide)
  rw [show (20:Nat) = 1 * poolCopyBase.slot_size + poolCopyBase.header_size + 0 from by
    decide]
  rw [h0]
  decide

open Pool in
/-- Claim C9 counterexample: over a buffer whose first slot header bytes
are all 0xFF (stored value usize::MAX), the first allocation claims slot 0
but its post-allocation ref count is the stored value plus one wrapped to
zero, not the stored value plus one. -/
theorem c9_alloc_wraps :
    ((Pool.new 4 (List.replicate 8 255 ++ List.replicate 4 0)).internal_alloc).1
        = Except.ok 0 ∧
    ((Pool.new 4 (List.replicate 8 255 ++ List.replicate 4 0)).internal_alloc).2.refCount 0
        ≠ (Pool.new 4 (List.replicate 8 255 ++ List.replicate 4 0)).refCount 0 + 1 := by
  refine ⟨rfl, ?_⟩
  decide

open Pool in
/-- Claim C9 (amended): construction writes no byte of the buffer, and when
allocate claims a virgin slot the post-allocation ref count is the value
already stored in the slot's header bytes plus one modulo 2^64 — exactly
the stored value plus one whenever that value is below usize::MAX — and
over genuine byte buffers it reads 1 only when the stored bytes were zero
beforehand. -/
theorem c9_alloc_no_init (sizeT : Nat) (mem : List Nat) (p : Pool) :
    (Pool.new sizeT mem).buffer = mem ∧
    (p.free_list = [] → p.tail < p.capacity →
      USIZE_BYTES ≤ p.slot_size → p.capacity * p.slot_size ≤ p.buffer.length →
      (p.internal_alloc).2.refCount p.tail = (p.refCount p.tail + 1) % USIZE_MOD ∧
      (p.refCount p.tail + 1 < USIZE_MOD →
        (p.internal_alloc).2.refCount p.tail = p.refCount p.tail + 1) ∧
      ((∀ b ∈ p.buffer, b < 256) →
        (p.internal_alloc).2.refCount p.tail = 1 → p.refCount p.tail = 0)) := by
  refine ⟨rfl, fun hf hlt hss hcap => ?_⟩
  have he : p.internal_alloc
      = (Except.ok p.tail, Pool.retain { p with tail := p.tail + 1 } p.tail) := by
    simp [Pool.internal_alloc, Pool.claim_free_index, hf, Pool.push_back_alloc,
      Nat.not_le.mpr hlt]
  have hb : p.tail * p.slot_size + USIZE_BYTES ≤ p.buffer.length :=
    header_le_length p hlt hss hcap
  have hval : (p.internal_alloc).2.refCount p.tail
      = (p.refCount p.tail + 1) % USIZE_MOD := by
    rw [he]
    exact refCount_retain_same { p with tail := p.tail + 1 } p.tail hb
  refine ⟨hval, fun hno => ?_, fun hv hone => ?_⟩
  · rw [hval, Nat.mod_eq_of_lt hno]
  · have hlt2 : p.refCount p.tail < USIZE_MOD := refCount_lt p _ hv
    rw [hval] at hone
    have hM : USIZE_MOD = 2 ^ 64 := rfl
    rw [hM] at hone hlt2
    omega

open Pool in
/-- Claim C9 witness: over a buffer whose slot-0 header already stores 5,
the first allocation leaves ref count 6 — the pre-existing value plus one,
with no initialization. -/
theorem c9_alloc_no_init_witness :
    ((Pool.new 4 (5 :: List.replicate 11 0)).internal_alloc).2.refCount 0
        = (Pool.new 4 (5 :: List.replicate 11 0)).refCount 0 + 1 ∧
    (Pool.new 4 (5 :: List.replicate 11 0)).buffer = 5 :: List.replicate 11 0 := by
  obtain ⟨hbuf, hrest⟩ :=
    c9_alloc_no_init 4 (5 :: List.replicate 11 0) (Pool.new 4 (5 :: List.replicate 11 0))
  obtain ⟨_, h2, _⟩ := hrest rfl (by decide) (by decide) (by decide)
  exact ⟨h2 (by decide), hbuf⟩

open Pool in
/-- Claim C10 counterexample: on a pool state whose slot-0 header stores
usize::MAX (a live count, at least 1), retain wraps the count to zero and
the following release hits the process-terminating assertion instead of
restoring the original state. -/
theorem c10_retain_release_fatal :
    0 < poolMax.tail ∧ 1 ≤ poolMax.refCount 0 ∧
    (poolMax.retain 0).release 0 = none := by
  refine ⟨by decide, by decide, ?_⟩
  decide

open Pool in
/-- Claim C10 (amended): when slot i's header lies inside the buffer, the
buffer holds genuine bytes, and the slot's ref count c satisfies 1 ≤ c and
c + 1 < 2^64 (no overflow), retain(i) followed by release(i) returns the
pool exactly as it was: the same buffer bytes, ref counts, free list and
tail. -/
theorem c10_retain_release_id (p : Pool) (i : Nat)
    (hv : ∀ b ∈ p.buffer, b < 256)
    (hb : i * p.slot_size + USIZE_BYTES ≤ p.buffer.length)
    (h1 : 1 ≤ p.refCount i) (h2 : p.refCount i + 1 < USIZE_MOD) :
    (p.retain i).release i = some p := by
  have hrc : (p.retain i).refCount i = p.refCount i + 1 :=
    (refCount_retain_same p i hb).trans (Nat.mod_eq_of_lt h2)
  have hge : 2 ≤ (p.retain i).refCount i := by omega
  rw [release_many _ _ hge, hrc, Nat.add_sub_cancel]
  have hbuf : ((p.retain i).setRefCount i (p.refCount i)).buffer = p.buffer := by
    show writeLE (writeLE p.buffer (i * p.slot_size) USIZE_BYTES _) (i * p.slot_size)
        USIZE_BYTES (p.refCount i) = p.buffer
    rw [writeLE_writeLE]
    exact writeLE_readLE_self _ _ _ hv
  have hrec : (p.retain i).setRefCount i (p.refCount i) = p :=
    calc (p.retain i).setRefCount i (p.refCount i)
        = { p with buffer := ((p.retain i).setRefCount i (p.refCount i)).buffer } := rfl
      _ = { p with buffer := p.buffer } := by rw [hbuf]
      _ = p := rfl
  rw [hrec]

open Pool in
/-- Claim C10 witness: on a pool whose slot-0 ref count is 3, retain then
release restores the pool state exactly. -/
theorem c10_retain_release_id_witness :
    (poolRC3.retain 0).release 0 = some poolRC3 :=
  c10_retain_release_id poolRC3 0 (by decide) (by decide) (by decide) (by decide)

end RustPal
